import Mathlib

/-!
Shallow embedding of the mgo cluster topology manager (cluster.go).

The embedding models the cluster state (`mongoCluster` in the source) and
the operations the claims are about: `mergeServer`, `removeServer`,
`Release`, the dynamic-seed update at the end of a synchronization pass,
the completion-signal logic of `syncServers`, and the wait/select/retry
loop of `AcquireSocket`.

Server handles (`mongoServer`, defined in a file of the repository that is
not part of the provided sources) are modelled from the spec as
address + role pairs; the `ServerSet` collections (`mongoServers`) are
modelled from the spec as ordered lists keyed by address, supporting
add (append), remove (remove the entry with the given address, reporting
whether one was present), search (first entry with the given address),
indexed get, length and snapshot.  The role partitions `masters` and
`slaves` are tracked by address, which is the identity of a handle.
-/

namespace Mgo

/-- Modelled from the spec: a server handle (`mongoServer`, in a source
file of the repository not included here) is per-address state: the
address, which is its identity, and the current role flag `Master`.
The connection pool and resolved address play no part in the claims
about the cluster sets and are omitted. -/
structure mongoServer where
  Addr : String
  Master : Bool
deriving DecidableEq

/-- The cluster state, from `mongoCluster` in cluster.go: user seeds,
dynamic seeds, the full server set, the two role partitions (tracked by
address), the syncing flag and the reference count. -/
structure Cluster where
  userSeeds : List String
  dynaSeeds : List String
  servers : List mongoServer
  masters : List String
  slaves : List String
  syncing : Bool
  references : Nat
deriving DecidableEq

/-- From `newCluster` in cluster.go: fresh cluster with reference count 1
and empty server sets. -/
def newCluster (userSeeds : List String) : Cluster :=
  { userSeeds := userSeeds, dynaSeeds := [], servers := [], masters := [],
    slaves := [], syncing := false, references := 1 }

/-- The addresses of the handles in a server list. -/
def serverAddrs (l : List mongoServer) : List String :=
  l.map (fun s => s.Addr)

/-- Modelled from the spec: `mongoServers.Search` returns the handle
stored under the given address, if any (the set is keyed by address). -/
def searchServer (l : List mongoServer) (a : String) : Option mongoServer :=
  l.find? (fun s => s.Addr == a)

/-- Modelled from the spec: `previous.Merge(server)` merges the
candidate's state into the existing handle; the stored handle's role
becomes the candidate's role, consistently with the partition move
performed by `mergeServer` just before the call. -/
def updateServer (l : List mongoServer) (c : mongoServer) : List mongoServer :=
  l.map (fun s => if s.Addr == c.Addr then { s with Master := c.Master } else s)

/-- From `mergeServer` in cluster.go (lines 170-199): look the candidate's
address up in `servers`; if absent, add it to `servers` and to the
partition matching its role; if present with a different role, move the
existing handle between the partitions; finally merge the candidate into
the existing handle. -/
def mergeServer (cl : Cluster) (c : mongoServer) : Cluster :=
  match searchServer cl.servers c.Addr with
  | none =>
    if c.Master then
      { cl with servers := cl.servers ++ [c], masters := cl.masters ++ [c.Addr] }
    else
      { cl with servers := cl.servers ++ [c], slaves := cl.slaves ++ [c.Addr] }
  | some previous =>
    let cl1 :=
      if c.Master != previous.Master then
        if previous.Master then
          { cl with masters := cl.masters.erase previous.Addr,
                    slaves := cl.slaves ++ [previous.Addr] }
        else
          { cl with slaves := cl.slaves.erase previous.Addr,
                    masters := cl.masters ++ [previous.Addr] }
      else cl
    { cl1 with servers := updateServer cl1.servers c }

/-- Whether a call of `mergeServer` takes the role-move branch
(`server.Master != previous.Master` with a previous handle found). -/
def mergeMoves (cl : Cluster) (c : mongoServer) : Bool :=
  match searchServer cl.servers c.Addr with
  | none => false
  | some previous => c.Master != previous.Master

/-- From `removeServer` in cluster.go (lines 90-99).  The source computes
`removed := cluster.servers.Remove(server) || cluster.masters.Remove(server)
|| cluster.slaves.Remove(server)`; `||` short-circuits, so the later
`Remove` calls run only when the earlier ones found nothing.  The returned
Bool is `removed`, which gates the log statement. -/
def removeServer (cl : Cluster) (a : String) : Cluster × Bool :=
  if cl.servers.any (fun s => s.Addr == a) then
    ({ cl with servers := cl.servers.eraseP (fun s => s.Addr == a) }, true)
  else if cl.masters.contains a then
    ({ cl with masters := cl.masters.erase a }, true)
  else
    ({ cl with slaves := cl.slaves.erase a }, cl.slaves.contains a)

/-- From `Release` in cluster.go (lines 76-88): `none` models the panic on
a zero reference count; otherwise the count is decremented and the second
component lists the server handles whose `Close` is called (all of
`servers` exactly when the count reaches zero). -/
def Release (cl : Cluster) : Option (Cluster × List mongoServer) :=
  if cl.references = 0 then none
  else
    some ({ cl with references := cl.references - 1 },
          if cl.references - 1 = 0 then cl.servers else [])

/-- From the tail of `syncServers` in cluster.go (lines 310-319): after a
pass, the dynamic seeds are overwritten with the addresses of the current
server set, but only when that set is non-empty. -/
def updateDynaSeeds (cl : Cluster) : Cluster :=
  if cl.servers.isEmpty then cl
  else { cl with dynaSeeds := serverAddrs cl.servers }

/-- Well-formedness of a cluster state: server addresses are distinct and
the two partitions list exactly the addresses of the handles whose stored
role matches.  This is the partition discipline `mergeServer` maintains. -/
def Wf (cl : Cluster) : Prop :=
  (serverAddrs cl.servers).Nodup ∧
  cl.masters = serverAddrs (cl.servers.filter (fun s => s.Master)) ∧
  cl.slaves = serverAddrs (cl.servers.filter (fun s => !s.Master))

instance (cl : Cluster) : Decidable (Wf cl) := by
  unfold Wf; infer_instance

/-!
Trace model of a synchronization pass (`syncServers`, cluster.go lines
254-301).  The pass keeps two counters, `started` and `finished`, both
protected by one mutex.  `spawnSync` increments `started` and launches a
probe branch; each branch, on completion, increments `finished` and
raises the pass-completion signal (`done.Unlock()`) exactly when
`started == finished && finished >= len(known)` holds at that instant.
Branches are spawned either by the initial loop over the `known` address
list (at most `len(known)` such spawns) or recursively from inside a
branch that has not yet completed.  A pass execution is modelled as a
chronological list of spawn/finish events; validity captures exactly
those two spawning rules and that only a running branch can finish.
-/

/-- Events of a synchronization pass: a spawn issued by the initial loop
over the known addresses, a spawn issued recursively from inside a
running branch, and the completion of a branch. -/
inductive SyncEvent where
  | spawnInit : SyncEvent
  | spawnRec : SyncEvent
  | finish : SyncEvent
deriving DecidableEq

/-- Value of the `started` counter after a list of events. -/
def started : List SyncEvent → Nat
  | [] => 0
  | SyncEvent.spawnInit :: t => started t + 1
  | SyncEvent.spawnRec :: t => started t + 1
  | SyncEvent.finish :: t => started t

/-- Value of the `finished` counter after a list of events. -/
def finished : List SyncEvent → Nat
  | [] => 0
  | SyncEvent.spawnInit :: t => finished t
  | SyncEvent.spawnRec :: t => finished t
  | SyncEvent.finish :: t => finished t + 1

/-- Number of initial-loop spawns in a list of events. -/
def inits : List SyncEvent → Nat
  | [] => 0
  | SyncEvent.spawnInit :: t => inits t + 1
  | SyncEvent.spawnRec :: t => inits t
  | SyncEvent.finish :: t => inits t

/-- Validity of an event list for a pass whose known address list has
`k` entries, given counts `s` (started), `f` (finished) and `i`
(initial spawns) accumulated so far: the initial loop spawns at most `k`
branches, a recursive spawn is issued by a branch that has started and
not yet finished, and only such a branch can finish. -/
def validFrom (k : Nat) : Nat → Nat → Nat → List SyncEvent → Bool
  | _, _, _, [] => true
  | s, f, i, SyncEvent.spawnInit :: t => decide (i < k) && validFrom k (s + 1) f (i + 1) t
  | s, f, i, SyncEvent.spawnRec :: t => decide (f < s) && validFrom k (s + 1) f i t
  | s, f, i, SyncEvent.finish :: t => decide (f < s) && validFrom k s (f + 1) i t

/-- Validity of a full trace, starting from the all-zero counters set up
at the start of the pass. -/
def valid (k : Nat) (t : List SyncEvent) : Bool :=
  validFrom k 0 0 0 t

/-- From cluster.go lines 268-275: whether the event `e`, occurring after
history `p`, raises the pass-completion signal.  Only a branch completion
checks the condition; at that point `finished` has just been incremented,
so the source condition `started == finished && finished >= len(known)`
reads `started p == finished p + 1 && k <= finished p + 1`. -/
def signalAt (k : Nat) (p : List SyncEvent) (e : SyncEvent) : Bool :=
  match e with
  | SyncEvent.finish => started p == finished p + 1 && decide (k ≤ finished p + 1)
  | _ => false

/-- The completion condition as the claim words it: the number of finished
branches equals the number of started branches and at least one branch
was spawned. -/
def claimQuiesced (t : List SyncEvent) : Bool :=
  finished t == started t && decide (1 ≤ started t)

/-!
Model of `AcquireSocket` (cluster.go lines 338-372).  The loop reads the
cluster's partitions and the clock, both of which other tasks mutate
concurrently, so each inner iteration is driven by one observation of
that environment: the partitions seen under the read lock, the clock
value, and whether the connection attempt (if one is made) succeeds.
-/

/-- One observation made by an iteration of the `AcquireSocket` loop:
the two partitions seen under the read lock, the value of
`time.Nanoseconds()` at the timeout check, and the outcome of
`server.AcquireSocket()` if a server is selected. -/
structure Obs where
  masters : List String
  slaves : List String
  now : Int
  connOk : Bool
deriving DecidableEq

/-- From cluster.go line 344: the wait loop exits when a master is known
or, for a read, when a slave is known. -/
def eligible (write : Bool) (masters slaves : List String) : Bool :=
  !masters.isEmpty || (!write && !slaves.isEmpty)

/-- From cluster.go lines 356-360: the selected server is `masters.Get(0)`
when writing or when no slave is known, and `slaves.Get(0)` otherwise. -/
def selectServer (write : Bool) (masters slaves : List String) : Option String :=
  if write || slaves.isEmpty then masters.head? else slaves.head?

/-- Outcome of an `AcquireSocket` run: success with the selected server,
the terminal "no reachable servers" failure, or still running when the
observation stream is exhausted. -/
inductive AcqResult where
  | success : Option String → AcqResult
  | noReachable : AcqResult
  | pending : AcqResult
deriving DecidableEq

/-- From `AcquireSocket` in cluster.go (lines 338-372): per observation,
if the eligibility condition holds the loop selects a server and attempts
a connection, returning the socket on success and retrying (after
removing the server and triggering a new pass) on failure; otherwise, if
a positive timeout has elapsed since `started`, it returns the terminal
failure; otherwise it waits on the readiness condition and re-checks. -/
def acquireSocket (write : Bool) (syncTimeout startedAt : Int) :
    List Obs → AcqResult
  | [] => AcqResult.pending
  | o :: rest =>
    if eligible write o.masters o.slaves then
      if o.connOk then AcqResult.success (selectServer write o.masters o.slaves)
      else acquireSocket write syncTimeout startedAt rest
    else if syncTimeout > 0 && o.now - startedAt > syncTimeout then
      AcqResult.noReachable
    else
      acquireSocket write syncTimeout startedAt rest

lemma started_append (a b : List SyncEvent) :
    started (a ++ b) = started a + started b := by
  induction a with
  | nil => simp [started]
  | cons e t ih =>
    cases e <;> (simp only [List.cons_append, started, List.append_eq, ih]; try omega)

lemma finished_append (a b : List SyncEvent) :
    finished (a ++ b) = finished a + finished b := by
  induction a with
  | nil => simp [finished]
  | cons e t ih =>
    cases e <;> (simp only [List.cons_append, finished, List.append_eq, ih]; try omega)

lemma validFrom_le (t : List SyncEvent) : ∀ k s f i,
    validFrom k s f i t = true → f ≤ s → finished t + f ≤ started t + s := by
  induction t with
  | nil => intro k s f i _ hfs; simpa [started, finished] using hfs
  | cons e t ih =>
    intro k s f i hv hfs
    cases e with
    | spawnInit =>
      simp only [validFrom, Bool.and_eq_true, decide_eq_true_eq] at hv
      have := ih k (s + 1) f (i + 1) hv.2 (Nat.le_succ_of_le hfs)
      simp only [started, finished]; omega
    | spawnRec =>
      simp only [validFrom, Bool.and_eq_true, decide_eq_true_eq] at hv
      have := ih k (s + 1) f i hv.2 (Nat.le_succ_of_le hfs)
      simp only [started, finished]; omega
    | finish =>
      simp only [validFrom, Bool.and_eq_true, decide_eq_true_eq] at hv
      have := ih k s (f + 1) i hv.2 hv.1
      simp only [started, finished]; omega

lemma mem_serverAddrs {l : List mongoServer} {a : String} :
    a ∈ serverAddrs l ↔ ∃ s ∈ l, s.Addr = a := by
  simp [serverAddrs]

lemma servers_any_iff {l : List mongoServer} {a : String} :
    l.any (fun s => s.Addr == a) = true ↔ a ∈ serverAddrs l := by
  simp [serverAddrs, List.any_eq_true]

lemma not_mem_addrs_eraseP {a : String} : ∀ l : List mongoServer,
    (serverAddrs l).Nodup → a ∉ serverAddrs (l.eraseP (fun s => s.Addr == a)) := by
  intro l
  induction l with
  | nil => intro _ h; simp [serverAddrs] at h
  | cons s t ih =>
    intro hnd
    simp only [serverAddrs, List.map_cons, List.nodup_cons] at hnd
    by_cases hsa : s.Addr = a
    · rw [List.eraseP_cons_of_pos (by simp [hsa])]
      intro hmem
      exact hnd.1 (hsa ▸ hmem)
    · rw [List.eraseP_cons_of_neg (by simp [hsa])]
      intro hmem
      simp only [serverAddrs, List.map_cons, List.mem_cons] at hmem
      rcases hmem with h | h
      · exact hsa h.symm
      · exact ih hnd.2 h

/-- C1 (code bug witness): in the state reached from a fresh cluster by
merging a master-role handle for address "a" and then removing it,
the partition invariant `masters ∪ slaves = servers` fails: the address
is still a member of `masters` although it is gone from `servers`,
because the short-circuiting `||` in `removeServer` skips the partition
`Remove` calls once the `servers` removal reports success. -/
theorem removeServer_breaks_partition :
    ("a" : String) ∈
      ((removeServer (mergeServer (newCluster ["seed"]) ⟨"a", true⟩) "a").1).masters ∧
    ("a" : String) ∉
      serverAddrs ((removeServer (mergeServer (newCluster ["seed"]) ⟨"a", true⟩) "a").1).servers ∧
    ((removeServer (mergeServer (newCluster ["seed"]) ⟨"a", true⟩) "a").1).slaves = [] := by
  decide

/-- C2 (counterexample): the claim fails twice on concrete input.  First,
in a state where the handle "a" is in both `servers` and `masters`,
`removeServer` leaves it in `masters` (it is not removed from all three
sets).  Second, removing an address absent from all three sets returns
`false` as the `removed` flag, so nothing is logged, while the claim says
the absent case is logged. -/
theorem removeServer_claim_counterexample :
    ("a" : String) ∈
      ((removeServer
        { userSeeds := [], dynaSeeds := [], servers := [⟨"a", true⟩],
          masters := ["a"], slaves := [], syncing := false, references := 1 }
        "a").1).masters ∧
    (removeServer (newCluster []) "b").2 = false := by
  decide

/-- C2 (amended): in every cluster state, well-formed or not,
`removeServer` removes the handle only from the first of the three sets
(`servers`, then `masters`, then `slaves`) in which its address is found,
leaving the other two sets untouched; the logged `removed` flag is true
exactly when the address was present in at least one of the three sets;
when absent from all three the call is a no-op and is not logged; and
when the server addresses are distinct, removal from `servers` removes
the address from it entirely. -/
theorem removeServer_spec : ∀ (cl : Cluster) (a : String),
    ((removeServer cl a).2 = true ↔
      (a ∈ serverAddrs cl.servers ∨ a ∈ cl.masters ∨ a ∈ cl.slaves)) ∧
    (a ∈ serverAddrs cl.servers →
      ((removeServer cl a).1).servers = cl.servers.eraseP (fun s => s.Addr == a) ∧
      ((removeServer cl a).1).masters = cl.masters ∧
      ((removeServer cl a).1).slaves = cl.slaves) ∧
    (a ∉ serverAddrs cl.servers → a ∈ cl.masters →
      ((removeServer cl a).1).masters = cl.masters.erase a ∧
      ((removeServer cl a).1).servers = cl.servers ∧
      ((removeServer cl a).1).slaves = cl.slaves) ∧
    (a ∉ serverAddrs cl.servers → a ∉ cl.masters → a ∈ cl.slaves →
      ((removeServer cl a).1).slaves = cl.slaves.erase a ∧
      ((removeServer cl a).1).servers = cl.servers ∧
      ((removeServer cl a).1).masters = cl.masters) ∧
    (a ∉ serverAddrs cl.servers → a ∉ cl.masters → a ∉ cl.slaves →
      (removeServer cl a).1 = cl ∧ (removeServer cl a).2 = false) ∧
    ((serverAddrs cl.servers).Nodup → a ∈ serverAddrs cl.servers →
      a ∉ serverAddrs ((removeServer cl a).1).servers) := by
  intro cl a
  by_cases h1 : cl.servers.any (fun s => s.Addr == a) = true
  · have hmem : a ∈ serverAddrs cl.servers := servers_any_iff.mp h1
    have heq : removeServer cl a =
        ({ cl with servers := cl.servers.eraseP (fun s => s.Addr == a) }, true) := by
      unfold removeServer
      rw [if_pos h1]
    refine ⟨?_, ?_, ?_, ?_, ?_, ?_⟩
    · rw [heq]
      simp [hmem]
    · intro _
      rw [heq]
      exact ⟨rfl, rfl, rfl⟩
    · intro habs _
      exact absurd hmem habs
    · intro habs _ _
      exact absurd hmem habs
    · intro habs _ _
      exact absurd hmem habs
    · intro hnd _
      rw [heq]
      exact not_mem_addrs_eraseP cl.servers hnd
  · have hnmem : a ∉ serverAddrs cl.servers := fun hm => h1 (servers_any_iff.mpr hm)
    by_cases h2 : cl.masters.contains a = true
    · have hm2 : a ∈ cl.masters := by simpa using h2
      have heq : removeServer cl a =
          ({ cl with masters := cl.masters.erase a }, true) := by
        unfold removeServer
        rw [if_neg h1, if_pos h2]
      refine ⟨?_, ?_, ?_, ?_, ?_, ?_⟩
      · rw [heq]
        simp [hm2]
      · intro hmem
        exact absurd hmem hnmem
      · intro _ _
        rw [heq]
        exact ⟨rfl, rfl, rfl⟩
      · intro _ hnm _
        exact absurd hm2 hnm
      · intro _ hnm _
        exact absurd hm2 hnm
      · intro _ hmem
        exact absurd hmem hnmem
    · have hnm2 : a ∉ cl.masters := fun hm => h2 (by simpa using hm)
      have heq : removeServer cl a =
          ({ cl with slaves := cl.slaves.erase a }, cl.slaves.contains a) := by
        unfold removeServer
        rw [if_neg h1, if_neg h2]
      refine ⟨?_, ?_, ?_, ?_, ?_, ?_⟩
      · rw [heq]
        constructor
        · intro hc
          exact Or.inr (Or.inr (by simpa using hc))
        · intro hor
          rcases hor with h | h | h
          · exact absurd h hnmem
          · exact absurd h hnm2
          · simpa using h
      · intro hmem
        exact absurd hmem hnmem
      · intro _ hm
        exact absurd hm hnm2
      · intro _ _ _
        rw [heq]
        exact ⟨rfl, rfl, rfl⟩
      · intro _ _ hns
        rw [heq]
        constructor
        · rw [List.erase_of_not_mem hns]
        · simpa using hns
      · intro _ hmem
        exact absurd hmem hnmem

/-- C2 witness: the amended theorem applied to a state reachable through
the C1 bug, in which address "a" sits in `masters` but not in `servers`:
the call falls through to the `masters` removal and touches nothing
else. -/
theorem removeServer_spec_witness :
    ((removeServer ⟨[], [], [], ["a"], [], false, 1⟩ "a").1).masters =
      (["a"] : List String).erase "a" ∧
    ((removeServer ⟨[], [], [], ["a"], [], false, 1⟩ "a").1).servers =
      (⟨[], [], [], ["a"], [], false, 1⟩ : Cluster).servers ∧
    ((removeServer ⟨[], [], [], ["a"], [], false, 1⟩ "a").1).slaves =
      (⟨[], [], [], ["a"], [], false, 1⟩ : Cluster).slaves :=
  (removeServer_spec ⟨[], [], [], ["a"], [], false, 1⟩ "a").2.2.1 (by decide) (by decide)

/-- C3 (counterexample): with two known addresses, the run in which the
first branch is spawned and completes before the second initial spawn is
issued satisfies the claim's condition (finished equals started, at least
one branch was spawned), yet the code does not raise the completion
signal there, because its actual condition also requires
`finished >= len(known)`. -/
theorem syncSignal_counterexample :
    valid 2 [SyncEvent.spawnInit, SyncEvent.finish] = true ∧
    claimQuiesced [SyncEvent.spawnInit, SyncEvent.finish] = true ∧
    signalAt 2 [SyncEvent.spawnInit] SyncEvent.finish = false := by
  decide

/-- C3 (amended): in every valid pass execution the finished counter never
exceeds the started counter; the completion signal is raised only at a
branch completion after which every spawned branch has completed
(started = finished) and at least `len(known)` branches — in particular
at least one — have finished; and conversely a branch completion at which
started equals the incremented finished counter and the latter has
reached `len(known)` does raise the signal. -/
theorem syncSignal_spec : ∀ (k : Nat) (p : List SyncEvent) (e : SyncEvent),
    (valid k (p ++ [e]) = true → finished (p ++ [e]) ≤ started (p ++ [e])) ∧
    (signalAt k p e = true →
      started (p ++ [e]) = finished (p ++ [e]) ∧ k ≤ finished (p ++ [e]) ∧
      1 ≤ started (p ++ [e])) ∧
    (e = SyncEvent.finish → started p = finished p + 1 → k ≤ finished p + 1 →
      signalAt k p e = true) := by
  intro k p e
  refine ⟨?_, ?_, ?_⟩
  · intro hv
    have := validFrom_le (p ++ [e]) k 0 0 0 hv (Nat.le_refl 0)
    omega
  · intro hs
    cases e with
    | finish =>
      simp only [signalAt, Bool.and_eq_true, beq_iff_eq, decide_eq_true_eq] at hs
      rw [started_append, finished_append]
      simp only [started, finished]
      omega
    | spawnInit => simp [signalAt] at hs
    | spawnRec => simp [signalAt] at hs
  · intro he hst hk
    subst he
    simp [signalAt, hst, hk]

/-- C3 witness: the amended theorem applied to the one-address pass whose
single branch completes, the point at which the code raises the signal. -/
theorem syncSignal_spec_witness :
    started ([SyncEvent.spawnInit] ++ [SyncEvent.finish]) =
      finished ([SyncEvent.spawnInit] ++ [SyncEvent.finish]) ∧
    1 ≤ finished ([SyncEvent.spawnInit] ++ [SyncEvent.finish]) ∧
    1 ≤ started ([SyncEvent.spawnInit] ++ [SyncEvent.finish]) :=
  (syncSignal_spec 1 [SyncEvent.spawnInit] SyncEvent.finish).2.1 (by decide)

/-- C10: a pass whose known address list is empty spawns no branch at all
(the only valid execution is the empty one), so no branch completion ever
occurs and the completion signal is never raised — the coordinator's wait
on it never returns; a pass that performs any event at all must have a
non-empty known address list. -/
theorem syncPass_needs_seed :
    (∀ (k : Nat) (t : List SyncEvent), valid k t = true → t ≠ [] → 1 ≤ k) ∧
    (∀ t : List SyncEvent, valid 0 t = true → t = []) ∧
    (∀ (p : List SyncEvent) (e : SyncEvent) (rest : List SyncEvent),
      valid 0 (p ++ e :: rest) = true → signalAt 0 p e = false) := by
  have hmain : ∀ (k : Nat) (t : List SyncEvent), valid k t = true → t ≠ [] → 1 ≤ k := by
    intro k t hv hne
    cases t with
    | nil => exact absurd rfl hne
    | cons e t' =>
      cases e with
      | spawnInit =>
        simp only [valid, validFrom, Bool.and_eq_true, decide_eq_true_eq] at hv
        omega
      | spawnRec =>
        simp only [valid, validFrom, Bool.and_eq_true, decide_eq_true_eq] at hv
        omega
      | finish =>
        simp only [valid, validFrom, Bool.and_eq_true, decide_eq_true_eq] at hv
        omega
  have hempty : ∀ t : List SyncEvent, valid 0 t = true → t = [] := by
    intro t hv
    by_cases hne : t = []
    · exact hne
    · exact absurd (hmain 0 t hv hne) (by omega)
  refine ⟨hmain, hempty, ?_⟩
  intro p e rest hv
  have := hempty (p ++ e :: rest) hv
  exact absurd this (by simp)

/-- C10 witness: the empty-trace conclusion at the empty trace, and the
non-empty-known precondition at the one-spawn trace of a two-address
pass. -/
theorem syncPass_needs_seed_witness :
    ([] : List SyncEvent) = [] ∧ 1 ≤ 2 :=
  ⟨syncPass_needs_seed.2.1 [] (by decide),
   syncPass_needs_seed.1 2 [SyncEvent.spawnInit] (by decide) (by decide)⟩

lemma searchServer_cons (s : mongoServer) (t : List mongoServer) (a : String) :
    searchServer (s :: t) a = if s.Addr == a then some s else searchServer t a := by
  by_cases h : (s.Addr == a) = true
  · simp [searchServer, h]
  · simp [searchServer, h]

lemma updateServer_cons (s : mongoServer) (t : List mongoServer) (c : mongoServer) :
    updateServer (s :: t) c =
      (if s.Addr == c.Addr then { s with Master := c.Master } else s) :: updateServer t c := by
  rfl

lemma searchServer_append_self (l : List mongoServer) (c : mongoServer)
    (h : searchServer l c.Addr = none) : searchServer (l ++ [c]) c.Addr = some c := by
  induction l with
  | nil => simp [searchServer]
  | cons s t ih =>
    rw [searchServer_cons] at h
    rw [List.cons_append, searchServer_cons]
    by_cases hsa : (s.Addr == c.Addr) = true
    · simp [hsa] at h
    · simp only [hsa, Bool.false_eq_true, if_false] at h ⊢
      exact ih h

lemma updateServer_of_search_none (l : List mongoServer) (c : mongoServer)
    (h : searchServer l c.Addr = none) : updateServer l c = l := by
  induction l with
  | nil => rfl
  | cons s t ih =>
    rw [searchServer_cons] at h
    rw [updateServer_cons]
    by_cases hsa : (s.Addr == c.Addr) = true
    · simp [hsa] at h
    · simp only [hsa, Bool.false_eq_true, if_false] at h ⊢
      rw [ih h]

lemma updateServer_append (l1 l2 : List mongoServer) (c : mongoServer) :
    updateServer (l1 ++ l2) c = updateServer l1 c ++ updateServer l2 c := by
  simp [updateServer]

lemma updateServer_single_self (c : mongoServer) : updateServer [c] c = [c] := by
  cases c
  simp [updateServer]

lemma searchServer_updateServer (l : List mongoServer) (c : mongoServer) :
    searchServer (updateServer l c) c.Addr =
      (searchServer l c.Addr).map (fun s => { s with Master := c.Master }) := by
  induction l with
  | nil => rfl
  | cons s t ih =>
    rw [updateServer_cons, searchServer_cons, searchServer_cons]
    by_cases hsa : (s.Addr == c.Addr) = true
    · simp [hsa]
    · simp [hsa, ih]

lemma updateServer_idem (l : List mongoServer) (c : mongoServer) :
    updateServer (updateServer l c) c = updateServer l c := by
  induction l with
  | nil => rfl
  | cons s t ih =>
    rw [updateServer_cons, updateServer_cons, ih]
    by_cases hsa : (s.Addr == c.Addr) = true
    · simp [hsa]
    · simp [hsa]

lemma mergeServer_of_found (cl : Cluster) (c prev : mongoServer)
    (h : searchServer cl.servers c.Addr = some prev) (hrole : prev.Master = c.Master) :
    mergeServer cl c = { cl with servers := updateServer cl.servers c } := by
  simp only [mergeServer, h, hrole, bne_self_eq_false, Bool.false_eq_true, if_false]

lemma mergeServer_servers_of_none (cl : Cluster) (c : mongoServer)
    (h : searchServer cl.servers c.Addr = none) :
    (mergeServer cl c).servers = cl.servers ++ [c] := by
  by_cases hcm : c.Master = true <;> simp [mergeServer, h, hcm]

lemma mergeServer_servers_of_found (cl : Cluster) (c prev : mongoServer)
    (h : searchServer cl.servers c.Addr = some prev) :
    (mergeServer cl c).servers = updateServer cl.servers c := by
  simp only [mergeServer, h]
  by_cases hne : (c.Master != prev.Master) = true
  · simp only [hne, if_true]
    by_cases hpm : prev.Master = true <;> simp [hpm]
  · simp only [hne, Bool.false_eq_true, if_false]

lemma searchServer_of_mem_nodup {l : List mongoServer} {e : mongoServer}
    (hnd : (serverAddrs l).Nodup) (he : e ∈ l) : searchServer l e.Addr = some e := by
  induction l with
  | nil => exact absurd he (by simp)
  | cons s t ih =>
    simp only [serverAddrs, List.map_cons, List.nodup_cons] at hnd
    rw [searchServer_cons]
    rcases List.mem_cons.mp he with rfl | het
    · simp
    · have hne : (s.Addr == e.Addr) = false := by
        have : e.Addr ∈ serverAddrs t := mem_serverAddrs.mpr ⟨e, het, rfl⟩
        simp only [beq_eq_false_iff_ne, ne_eq]
        intro hctr
        exact hnd.1 (hctr ▸ this)
      simp only [hne, Bool.false_eq_true, if_false]
      exact ih hnd.2 het

lemma mergeServer_flip_to_master (cl : Cluster) (c e : mongoServer)
    (hsearch : searchServer cl.servers c.Addr = some e)
    (hc : c.Master = true) (he : e.Master = false) :
    (mergeServer cl c).masters = cl.masters ++ [e.Addr] ∧
    (mergeServer cl c).slaves = cl.slaves.erase e.Addr := by
  simp [mergeServer, hsearch, hc, he]

lemma mergeServer_flip_to_slave (cl : Cluster) (c e : mongoServer)
    (hsearch : searchServer cl.servers c.Addr = some e)
    (hc : c.Master = false) (he : e.Master = true) :
    (mergeServer cl c).slaves = cl.slaves ++ [e.Addr] ∧
    (mergeServer cl c).masters = cl.masters.erase e.Addr := by
  simp [mergeServer, hsearch, hc, he]

/-- C4: merging the same candidate (same address, same role) a second time
returns a cluster state equal to the one after the first merge — in
particular the membership of `servers`, `masters` and `slaves` is
identical — and the second call takes no role-move branch. -/
theorem mergeServer_idem : ∀ (cl : Cluster) (c : mongoServer),
    mergeServer (mergeServer cl c) c = mergeServer cl c ∧
    mergeMoves (mergeServer cl c) c = false := by
  intro cl c
  cases hsearch : searchServer cl.servers c.Addr with
  | none =>
    have hs1 : (mergeServer cl c).servers = cl.servers ++ [c] :=
      mergeServer_servers_of_none cl c hsearch
    have hsearch1 : searchServer (mergeServer cl c).servers c.Addr = some c := by
      rw [hs1]
      exact searchServer_append_self cl.servers c hsearch
    have hupd : updateServer (mergeServer cl c).servers c = (mergeServer cl c).servers := by
      rw [hs1, updateServer_append, updateServer_of_search_none cl.servers c hsearch,
        updateServer_single_self]
    constructor
    · rw [mergeServer_of_found (mergeServer cl c) c c hsearch1 rfl, hupd]
    · simp [mergeMoves, hsearch1]
  | some prev =>
    have hs1 : (mergeServer cl c).servers = updateServer cl.servers c :=
      mergeServer_servers_of_found cl c prev hsearch
    have hsearch1 : searchServer (mergeServer cl c).servers c.Addr
        = some { prev with Master := c.Master } := by
      rw [hs1, searchServer_updateServer, hsearch]
      rfl
    have hupd : updateServer (mergeServer cl c).servers c = (mergeServer cl c).servers := by
      rw [hs1, updateServer_idem]
    constructor
    · rw [mergeServer_of_found (mergeServer cl c) c _ hsearch1 rfl, hupd]
    · simp [mergeMoves, hsearch1]

/-- C5: in a well-formed cluster, merging a master-role candidate whose
address is currently in `slaves` puts that address into `masters` and
removes it from `slaves`; symmetrically, merging a slave-role candidate
whose address is currently in `masters` puts it into `slaves` and removes
it from `masters`. -/
theorem mergeServer_role_flip : ∀ (cl : Cluster) (c : mongoServer), Wf cl →
    (c.Master = true → c.Addr ∈ cl.slaves →
      c.Addr ∈ (mergeServer cl c).masters ∧ c.Addr ∉ (mergeServer cl c).slaves) ∧
    (c.Master = false → c.Addr ∈ cl.masters →
      c.Addr ∈ (mergeServer cl c).slaves ∧ c.Addr ∉ (mergeServer cl c).masters) := by
  intro cl c hwf
  obtain ⟨hnd, hmeq, hseq⟩ := hwf
  constructor
  · intro hc hmem
    rw [hseq, mem_serverAddrs] at hmem
    obtain ⟨e, hef, hea⟩ := hmem
    have heserv : e ∈ cl.servers := List.mem_of_mem_filter hef
    have hem : e.Master = false := by
      have := List.of_mem_filter hef
      simpa using this
    have hsearch : searchServer cl.servers c.Addr = some e := by
      rw [← hea]
      exact searchServer_of_mem_nodup hnd heserv
    obtain ⟨hm2, hs2⟩ := mergeServer_flip_to_master cl c e hsearch hc hem
    have hsnd : cl.slaves.Nodup := by
      rw [hseq]
      exact hnd.sublist (List.Sublist.map _ (List.filter_sublist _))
    constructor
    · rw [hm2, hea]
      simp
    · rw [hs2, hea]
      intro hmem2
      exact ((List.Nodup.mem_erase_iff hsnd).mp hmem2).1 rfl
  · intro hc hmem
    rw [hmeq, mem_serverAddrs] at hmem
    obtain ⟨e, hef, hea⟩ := hmem
    have heserv : e ∈ cl.servers := List.mem_of_mem_filter hef
    have hem : e.Master = true := List.of_mem_filter hef
    have hsearch : searchServer cl.servers c.Addr = some e := by
      rw [← hea]
      exact searchServer_of_mem_nodup hnd heserv
    obtain ⟨hs2, hm2⟩ := mergeServer_flip_to_slave cl c e hsearch hc hem
    have hmnd : cl.masters.Nodup := by
      rw [hmeq]
      exact hnd.sublist (List.Sublist.map _ (List.filter_sublist _))
    constructor
    · rw [hs2, hea]
      simp
    · rw [hm2, hea]
      intro hmem2
      exact ((List.Nodup.mem_erase_iff hmnd).mp hmem2).1 rfl

/-- C5 witness: the role-flip theorem applied to a concrete well-formed
cluster where "a" is a slave and the probe reports it as a master. -/
theorem mergeServer_role_flip_witness :
    ("a" : String) ∈ (mergeServer
      { userSeeds := ["seed"], dynaSeeds := [], servers := [⟨"a", false⟩, ⟨"b", true⟩],
        masters := ["b"], slaves := ["a"], syncing := false, references := 2 }
      ⟨"a", true⟩).masters ∧
    ("a" : String) ∉ (mergeServer
      { userSeeds := ["seed"], dynaSeeds := [], servers := [⟨"a", false⟩, ⟨"b", true⟩],
        masters := ["b"], slaves := ["a"], syncing := false, references := 2 }
      ⟨"a", true⟩).slaves :=
  (mergeServer_role_flip
    { userSeeds := ["seed"], dynaSeeds := [], servers := [⟨"a", false⟩, ⟨"b", true⟩],
      masters := ["b"], slaves := ["a"], syncing := false, references := 2 }
    ⟨"a", true⟩ (by decide)).1 rfl (by decide)

/-- C6: `Release` panics (returns `none`) exactly when the reference
count is already 0; otherwise it decrements the count; it closes exactly
the handles of `servers` when the count goes from 1 to 0 and closes
nothing otherwise; after the closing call the count is 0, so any further
`Release` panics rather than closing again — teardown happens at most
once, and the server sets themselves are untouched. -/
theorem Release_spec : ∀ cl : Cluster,
    (Release cl = none ↔ cl.references = 0) ∧
    (∀ (cl' : Cluster) (closed : List mongoServer), Release cl = some (cl', closed) →
      cl'.references + 1 = cl.references ∧
      (cl.references = 1 → closed = cl.servers ∧ cl'.references = 0 ∧ Release cl' = none) ∧
      (cl.references ≠ 1 → closed = []) ∧
      cl'.servers = cl.servers ∧ cl'.masters = cl.masters ∧ cl'.slaves = cl.slaves) := by
  intro cl
  constructor
  · constructor
    · intro h
      by_cases h0 : cl.references = 0
      · exact h0
      · rw [Release, if_neg h0] at h
        exact absurd h (by simp)
    · intro h0
      rw [Release, if_pos h0]
  · intro cl' closed h
    by_cases h0 : cl.references = 0
    · rw [Release, if_pos h0] at h
      exact absurd h (by simp)
    · rw [Release, if_neg h0] at h
      simp only [Option.some.injEq, Prod.mk.injEq] at h
      obtain ⟨h1, h2⟩ := h
      subst h1
      subst h2
      refine ⟨by show cl.references - 1 + 1 = cl.references; omega, ?_, ?_, rfl, rfl, rfl⟩
      · intro hone
        have hz : cl.references - 1 = 0 := by omega
        refine ⟨by rw [if_pos hz], hz, ?_⟩
        rw [Release, if_pos hz]
      · intro hne
        have hz : ¬cl.references - 1 = 0 := by omega
        rw [if_neg hz]

/-- C6 witness: releasing the last reference of a concrete cluster closes
its only server and leaves a state whose further release panics. -/
theorem Release_spec_witness :
    (⟨[], [], [⟨"a", true⟩], ["a"], [], false, 0⟩ : Cluster).references + 1 =
      (⟨[], [], [⟨"a", true⟩], ["a"], [], false, 1⟩ : Cluster).references ∧
    ([⟨"a", true⟩] : List mongoServer) =
      (⟨[], [], [⟨"a", true⟩], ["a"], [], false, 1⟩ : Cluster).servers ∧
    Release (⟨[], [], [⟨"a", true⟩], ["a"], [], false, 0⟩ : Cluster) = none :=
  ⟨((Release_spec ⟨[], [], [⟨"a", true⟩], ["a"], [], false, 1⟩).2
      ⟨[], [], [⟨"a", true⟩], ["a"], [], false, 0⟩ [⟨"a", true⟩] (by decide)).1,
   (((Release_spec ⟨[], [], [⟨"a", true⟩], ["a"], [], false, 1⟩).2
      ⟨[], [], [⟨"a", true⟩], ["a"], [], false, 0⟩ [⟨"a", true⟩] (by decide)).2.1 rfl).1,
   (((Release_spec ⟨[], [], [⟨"a", true⟩], ["a"], [], false, 1⟩).2
      ⟨[], [], [⟨"a", true⟩], ["a"], [], false, 0⟩ [⟨"a", true⟩] (by decide)).2.1 rfl).2.2⟩

/-- C9: at the end of a pass the dynamic seed list is replaced by the
addresses of the current server set exactly when that set is non-empty,
and is left unchanged (along with the whole state) when the server set is
empty; the update touches nothing but `dynaSeeds`. -/
theorem updateDynaSeeds_spec : ∀ cl : Cluster,
    (cl.servers ≠ [] → (updateDynaSeeds cl).dynaSeeds = serverAddrs cl.servers) ∧
    (cl.servers = [] → updateDynaSeeds cl = cl) ∧
    (updateDynaSeeds cl).servers = cl.servers ∧
    (updateDynaSeeds cl).masters = cl.masters ∧
    (updateDynaSeeds cl).slaves = cl.slaves ∧
    (updateDynaSeeds cl).userSeeds = cl.userSeeds ∧
    (updateDynaSeeds cl).references = cl.references := by
  intro cl
  by_cases h : cl.servers.isEmpty = true
  · have he : cl.servers = [] := by simpa using h
    rw [updateDynaSeeds, if_pos h]
    exact ⟨fun hne => absurd he hne, fun _ => rfl, rfl, rfl, rfl, rfl, rfl⟩
  · rw [updateDynaSeeds, if_neg h]
    have hne : cl.servers ≠ [] := by simpa using h
    exact ⟨fun _ => rfl, fun hemp => absurd hemp hne, rfl, rfl, rfl, rfl, rfl⟩

/-- C9 witness: the dynamic-seed update applied to a cluster with one
server replaces the old seed list with that server's address. -/
theorem updateDynaSeeds_spec_witness :
    (updateDynaSeeds ⟨[], ["old"], [⟨"a", true⟩], ["a"], [], false, 1⟩).dynaSeeds =
      serverAddrs (⟨[], ["old"], [⟨"a", true⟩], ["a"], [], false, 1⟩ : Cluster).servers :=
  (updateDynaSeeds_spec ⟨[], ["old"], [⟨"a", true⟩], ["a"], [], false, 1⟩).1 (by decide)

/-- C7: the only terminal failure of the acquisition loop is the
"no reachable servers" outcome, and it occurs only when the supplied
timeout is positive and some wait iteration observed no eligible server
with the deadline already elapsed (measured from the loop's start); with
a non-positive timeout the loop never returns a failure; and a
connection-open failure on an eligible observation is not terminal — the
loop continues on the remaining observations with the same timeout and
the same start instant. -/
theorem acquireSocket_spec : ∀ (write : Bool) (syncTimeout startedAt : Int) (obs : List Obs),
    (acquireSocket write syncTimeout startedAt obs = AcqResult.noReachable →
      0 < syncTimeout ∧ ∃ o ∈ obs, eligible write o.masters o.slaves = false ∧
        o.now - startedAt > syncTimeout) ∧
    (syncTimeout ≤ 0 → acquireSocket write syncTimeout startedAt obs ≠ AcqResult.noReachable) ∧
    (∀ (o : Obs) (rest : List Obs), eligible write o.masters o.slaves = true → o.connOk = false →
      acquireSocket write syncTimeout startedAt (o :: rest) =
        acquireSocket write syncTimeout startedAt rest) := by
  intro write t s obs
  have h1 : acquireSocket write t s obs = AcqResult.noReachable →
      0 < t ∧ ∃ o ∈ obs, eligible write o.masters o.slaves = false ∧ o.now - s > t := by
    induction obs with
    | nil =>
      intro h
      simp [acquireSocket] at h
    | cons o rest ih =>
      intro h
      by_cases he : eligible write o.masters o.slaves = true
      · rw [acquireSocket, if_pos he] at h
        by_cases hc : o.connOk = true
        · rw [if_pos hc] at h
          exact absurd h (by simp)
        · rw [if_neg hc] at h
          obtain ⟨ht, o2, hmem, hrest⟩ := ih h
          exact ⟨ht, o2, List.mem_cons_of_mem o hmem, hrest⟩
      · rw [acquireSocket, if_neg he] at h
        by_cases htime : (t > 0 && o.now - s > t) = true
        · simp only [Bool.and_eq_true, decide_eq_true_eq] at htime
          exact ⟨htime.1, o, List.mem_cons_self o rest,
            ⟨by simpa using he, htime.2⟩⟩
        · rw [if_neg htime] at h
          obtain ⟨ht, o2, hmem, hrest⟩ := ih h
          exact ⟨ht, o2, List.mem_cons_of_mem o hmem, hrest⟩
  refine ⟨h1, ?_, ?_⟩
  · intro hle h
    obtain ⟨ht, _⟩ := h1 h
    omega
  · intro o rest he hc
    rw [acquireSocket, if_pos he, if_neg (by simp [hc])]

/-- C7 witness: a run with a positive elapsed timeout and no eligible
server terminates with the failure and satisfies the characterization;
the retry equation applied to a concrete failed connection attempt. -/
theorem acquireSocket_spec_witness :
    (0 < (5 : Int) ∧ ∃ o ∈ [(⟨[], [], 100, true⟩ : Obs)],
      eligible true o.masters o.slaves = false ∧ o.now - 0 > 5) ∧
    acquireSocket true 5 0 [⟨["m"], [], 0, false⟩] = acquireSocket true 5 0 [] :=
  ⟨(acquireSocket_spec true 5 0 [⟨[], [], 100, true⟩]).1 (by decide),
   (acquireSocket_spec true 5 0 []).2.2 ⟨["m"], [], 0, false⟩ [] (by decide) (by decide)⟩

/-- C8: whenever the eligibility condition that guards the exit of the
wait loop holds, the selection step yields a server, and that server is a
member of `masters` for a write, a member of `slaves` for a read when any
slave is known, and a member of `masters` for a read otherwise. -/
theorem selectServer_spec : ∀ (write : Bool) (masters slaves : List String),
    eligible write masters slaves = true →
    ∃ a, selectServer write masters slaves = some a ∧
      (write = true → a ∈ masters) ∧
      (write = false → (slaves = [] → a ∈ masters) ∧ (slaves ≠ [] → a ∈ slaves)) := by
  intro write masters slaves he
  cases masters with
  | nil =>
    cases slaves with
    | nil => simp [eligible] at he
    | cons b sl =>
      have hw : write = false := by
        simp [eligible] at he
        exact he
      refine ⟨b, ?_, ?_, ?_⟩
      · rw [selectServer, hw]
        simp
      · intro hcontra
        rw [hw] at hcontra
        exact absurd hcontra (by simp)
      · intro _
        exact ⟨fun hemp => absurd hemp (by simp), fun _ => List.mem_cons_self b sl⟩
  | cons a ml =>
    cases hw : write with
    | true =>
      refine ⟨a, ?_, ?_, ?_⟩
      · rw [selectServer]
        simp
      · intro _
        exact List.mem_cons_self a ml
      · intro hcontra
        exact absurd hcontra (by simp)
    | false =>
      cases slaves with
      | nil =>
        refine ⟨a, ?_, ?_, ?_⟩
        · rw [selectServer]
          simp
        · intro _
          exact List.mem_cons_self a ml
        · intro _
          exact ⟨fun _ => List.mem_cons_self a ml, fun hne => absurd rfl hne⟩
      | cons b sl =>
        refine ⟨b, ?_, ?_, ?_⟩
        · rw [selectServer]
          simp
        · intro hcontra
          exact absurd hcontra (by simp)
        · intro _
          exact ⟨fun hemp => absurd hemp (by simp), fun _ => List.mem_cons_self b sl⟩

/-- C8 witness: the selection property at a concrete read request with no
known slave, exercising the fallback to the masters partition. -/
theorem selectServer_spec_witness :
    ∃ a, selectServer false ["m"] [] = some a ∧
      (false = true → a ∈ ["m"]) ∧
      (false = false → (([] : List String) = [] → a ∈ ["m"]) ∧
        (([] : List String) ≠ [] → a ∈ ([] : List String))) :=
  selectServer_spec false ["m"] [] (by decide)

end Mgo
